/-
Verification of the VoidWriter / React Three Fiber text-effect demo
(src/src/App.tsx) against its natural-language specification.

The application state and its event handlers are shallowly embedded:
React `useState` fields become fields of `AppState`; each handler
(`handleKeyDown`, `handleFadeComplete`, `handleDownload`, `handleCopy`,
`clearAllText`, `togglePanel`, the fade-speed slider) becomes a pure
function on `AppState`.  `Math.random()` calls are parameterised by a
`RandParams` record of rational samples; float arithmetic on positions
and font sizes is modelled over `ℚ` (positions are exact decimal
fractions, so rational arithmetic is faithful).  The `setTimeout` in the
punctuation branch is modelled by a FIFO queue `pendingCommits` of the
`startNewWord` closures it schedules; each closure captured the render's
`currentWord` at scheduling time, which the queue records, and a
`timeout` event fires the oldest one.  Strings are `List Char`.
-/
import Mathlib

namespace VoidWriter

/-- A displayed 3D letter record, as in the `displayedLetters` state:
`{ id, text, position, isFadingOut, fontSize }`. -/
structure Letter where
  id : Nat
  text : Char
  pos : ℚ × ℚ × ℚ
  isFadingOut : Bool
  fontSize : ℚ
  deriving Repr, DecidableEq

/-- One letter of the output of `updateLetterPositions`:
`{ text, position, fontSize }`. -/
structure LetterInfo where
  text : Char
  pos : ℚ × ℚ × ℚ
  fontSize : ℚ
  deriving Repr, DecidableEq

/-- The `Math.random()` samples consumed by one call to
`updateLetterPositions`: the font-size variation sample and the random
word-centre coordinates. -/
structure RandParams where
  fontR : ℚ
  xR : ℚ
  yR : ℚ
  deriving Repr, DecidableEq

/-- The whole `App` component state. `pendingCommits` models the
`setTimeout(() => startNewWord(), 200)` callbacks not yet fired: each
entry is the `currentWord` value captured by the scheduled
`startNewWord` closure, oldest first. -/
structure AppState where
  currentWord : List Char
  displayedLetters : List Letter
  nextId : Nat
  textBuffer : List (List Char)
  hasText : Bool
  isPanelVisible : Bool
  fadeSpeedFactor : ℚ
  pendingCommits : List (List Char)
  deriving Repr, DecidableEq

/-- Initial component state: all `useState` initial values. -/
def init : AppState :=
  { currentWord := []
    displayedLetters := []
    nextId := 1
    textBuffer := []
    hasText := false
    isPanelVisible := true
    fadeSpeedFactor := 1
    pendingCommits := [] }

/-- The character class of `/^[a-zA-Z]$/`. -/
def isLetterKey (c : Char) : Bool :=
  ('a' ≤ c && c ≤ 'z') || ('A' ≤ c && c ≤ 'Z')

/-- The character class of `/[.,!?;:]/`. -/
def isPunctKey (c : Char) : Bool :=
  c = '.' || c = ',' || c = '!' || c = '?' || c = ';' || c = ':'

/-- JavaScript `String.prototype.trim` whitespace (the characters the
typed keys could conceivably produce; `trim` strips these from both
ends). -/
def isJsWhitespace (c : Char) : Bool :=
  c = ' ' || c = '\t' || c = '\n' || c = '\r' ||
  c = '\x0b' || c = '\x0c' || c = ' '

/-- JavaScript `word.trim()` on a word modelled as `List Char`. -/
def jsTrim (w : List Char) : List Char :=
  ((w.dropWhile isJsWhitespace).reverse.dropWhile isJsWhitespace).reverse

/-- `updateLetterPositions(word)`: centres the word around the random
point and assigns each letter its x-offset `index * (letterWidth +
letterSpacing)` plus the font-size variation.  Numeric literals are the
exact decimals of the source. -/
def updateLetterPositions (word : List Char) (r : RandParams) : List LetterInfo :=
  let wordLength : ℚ := word.length
  let baseFontSize : ℚ := 7/10
  let fontSizeVariation : ℚ := baseFontSize * (9/10 + r.fontR * (2/10))
  let letterWidth : ℚ := 4/10
  let letterSpacing : ℚ := 1/20
  let totalWidth : ℚ := wordLength * (letterWidth + letterSpacing)
  let randomX : ℚ := r.xR * 6 - 3
  let randomY : ℚ := r.yR * 4 - 2
  let startX : ℚ := randomX - totalWidth / 2 + letterWidth / 2
  word.mapIdx fun index letter =>
    { text := letter
      pos := (startX + index * (letterWidth + letterSpacing), randomY, 0)
      fontSize := fontSizeVariation }

/-- `letter.isFadingOut ? letter : { ...letter, isFadingOut: true }`. -/
def markFading (l : Letter) : Letter :=
  if l.isFadingOut then l else { l with isFadingOut := true }

/-- The new-word letters appended to `displayedLetters` by a commit:
the `updateLetterPositions` output, each entry given the id
`nextId + index` and `isFadingOut: false`. -/
def freshLetters (word : List Char) (r : RandParams) (startId : Nat) : List Letter :=
  (updateLetterPositions word r).mapIdx fun index info =>
    { id := startId + index
      text := info.text
      pos := info.pos
      fontSize := info.fontSize
      isFadingOut := false }

/-- The `setDisplayedLetters` + `setNextId` updates shared by the
space/enter and punctuation branches: fade out every previous letter,
append the new word's letters with ids `nextId + index`, and advance
`nextId` by the word length. -/
def commitDisplay (word : List Char) (r : RandParams) (s : AppState) : AppState :=
  { s with
    displayedLetters := s.displayedLetters.map markFading ++ freshLetters word r s.nextId
    nextId := s.nextId + word.length }

/-- The body of `startNewWord`, whose closure captured the word `w` as
its `currentWord`: if `w.trim()` is truthy, append `w` to the text
buffer, set `hasText`, and reset `currentWord`. -/
def startNewWordWith (w : List Char) (s : AppState) : AppState :=
  if jsTrim w ≠ [] then
    { s with textBuffer := s.textBuffer ++ [w], hasText := true, currentWord := [] }
  else s

/-- A keyboard event's `key` value: a single printable character, or a
named key.  Named keys other than `Backspace`/`Enter` match none of the
handler's tests (no DOM key name contains a letter-only regex match as a
full single character nor one of `.,!?;:`), so they are one constructor. -/
inductive Key where
  | printable (c : Char)
  | backspace
  | enter
  | otherNamed
  deriving Repr, DecidableEq

/-- `handleKeyDown`.  The space/enter branch commits synchronously via
`startNewWord` (whose captured `currentWord` equals the state's).  The
punctuation branch appends the punctuation, displays the punctuated
word, and schedules `startNewWord` via `setTimeout`; the scheduled
closure is the render's `startNewWord`, which captured the
pre-punctuation `currentWord`, so that word is what is queued. -/
def handleKeyDown : Key → RandParams → AppState → AppState
  | .printable c, r, s =>
    if isLetterKey c then
      { s with currentWord := s.currentWord ++ [c] }
    else if c = ' ' then
      if jsTrim s.currentWord ≠ [] then
        startNewWordWith s.currentWord (commitDisplay s.currentWord r s)
      else s
    else if isPunctKey c then
      if s.currentWord ≠ [] then
        { commitDisplay (s.currentWord ++ [c]) r { s with currentWord := s.currentWord ++ [c] } with
            pendingCommits := s.pendingCommits ++ [s.currentWord] }
      else s
    else s
  | .backspace, _, s =>
    if s.currentWord.length > 0 then
      { s with currentWord := s.currentWord.dropLast }
    else s
  | .enter, r, s =>
    if jsTrim s.currentWord ≠ [] then
      startNewWordWith s.currentWord (commitDisplay s.currentWord r s)
    else s
  | .otherNamed, _, s => s

/-- The oldest scheduled `setTimeout` callback fires: run the captured
`startNewWord` closure. -/
def fireTimeout (s : AppState) : AppState :=
  match s.pendingCommits with
  | [] => s
  | w :: rest => startNewWordWith w { s with pendingCommits := rest }

/-- `handleFadeComplete(id)`: remove the letter with that id. -/
def handleFadeComplete (id : Nat) (s : AppState) : AppState :=
  { s with displayedLetters := s.displayedLetters.filter fun l => l.id ≠ id }

/-- JavaScript `Array.prototype.join(sep)` on a list of words. -/
def jsJoin (sep : List Char) : List (List Char) → List Char
  | [] => []
  | [w] => w
  | w :: ws => w ++ sep ++ jsJoin sep ws

/-- `getTextContent()`: `textBuffer.join(' ')`. -/
def getTextContent (s : AppState) : List Char :=
  jsJoin [' '] s.textBuffer

/-- `clearTextBuffer()`. -/
def clearTextBuffer (s : AppState) : AppState :=
  { s with textBuffer := [], hasText := false }

/-- `clearAllText()`. -/
def clearAllText (s : AppState) : AppState :=
  { s with textBuffer := [], hasText := false, currentWord := [], displayedLetters := [] }

/-- `handleDownload()`: with an empty buffer, return immediately and
produce no file; otherwise produce a text/plain file whose content is
`getTextContent()` and then clear the buffer.  The second component is
the downloaded file's content, `none` when no file is produced. -/
def handleDownload (s : AppState) : AppState × Option (List Char) :=
  if s.textBuffer = [] then (s, none)
  else
    let content := getTextContent s
    (clearTextBuffer s, some content)

/-- `handleCopy()`, with the clipboard write's outcome as a parameter.
Returns the new state, the content passed to
`navigator.clipboard.writeText` (`none` when no write is attempted),
and whether a console error was logged. -/
def handleCopy (ok : Bool) (s : AppState) : AppState × Option (List Char) × Bool :=
  if s.textBuffer = [] then (s, none, false)
  else if ok then (clearTextBuffer s, some (getTextContent s), false)
  else (s, some (getTextContent s), true)

/-- `togglePanel()`. -/
def togglePanel (s : AppState) : AppState :=
  { s with isPanelVisible := !s.isPanelVisible }

/-- The fade-speed slider's `onChange`. -/
def setFadeSpeed (q : ℚ) (s : AppState) : AppState :=
  { s with fadeSpeedFactor := q }

/-- The events that can change the component state. -/
inductive Event where
  | key (k : Key) (r : RandParams)
  | timeout
  | fadeComplete (id : Nat)
  | download
  | copy (ok : Bool)
  | clearAll
  | toggle
  | slider (q : ℚ)
  deriving Repr

/-- One event's effect on the state. -/
def step (e : Event) (s : AppState) : AppState :=
  match e with
  | .key k r => handleKeyDown k r s
  | .timeout => fireTimeout s
  | .fadeComplete id => handleFadeComplete id s
  | .download => (handleDownload s).1
  | .copy ok => (handleCopy ok s).1
  | .clearAll => clearAllText s
  | .toggle => togglePanel s
  | .slider q => setFadeSpeed q s

/-- Run a list of events from a state. -/
def run (s : AppState) : List Event → AppState
  | [] => s
  | e :: es => run (step e s) es

/-- States reachable from the initial state. -/
inductive Reachable : AppState → Prop where
  | init : Reachable init
  | step (e : Event) {s : AppState} : Reachable s → Reachable (step e s)

/-- `FadingLetter`'s per-tick opacity update: `prev - fadeSpeed`,
clamped to `0` (triggering `onFadeComplete` and clearing the interval)
when the decrement reaches or crosses `0`. -/
def fadeTick (fadeSpeed prev : ℚ) : ℚ :=
  let newOpacity := prev - fadeSpeed
  if newOpacity ≤ 0 then 0 else newOpacity

/-- Opacity after `n` ticks, starting from the initial `useState(1)`. -/
def opacityAt (fadeSpeed : ℚ) : Nat → ℚ
  | 0 => 1
  | n + 1 => fadeTick fadeSpeed (opacityAt fadeSpeed n)

/-! ### Basic lemmas about the embedded operations -/

theorem dropWhile_eq_self_of_none {p : Char → Bool} :
    ∀ {l : List Char}, (∀ c ∈ l, p c = false) → l.dropWhile p = l
  | [], _ => rfl
  | a :: l, h => by
    have ha : p a = false := h a (List.mem_cons_self a l)
    simp [List.dropWhile, ha]

theorem jsTrim_eq_self {w : List Char} (h : ∀ c ∈ w, isJsWhitespace c = false) :
    jsTrim w = w := by
  unfold jsTrim
  rw [dropWhile_eq_self_of_none h, dropWhile_eq_self_of_none, List.reverse_reverse]
  intro c hc
  exact h c (List.mem_reverse.mp hc)

theorem markFading_id (l : Letter) : (markFading l).id = l.id := by
  unfold markFading; split <;> rfl

theorem markFading_isFadingOut (l : Letter) : (markFading l).isFadingOut = true := by
  unfold markFading; split <;> simp_all

theorem length_updateLetterPositions (w : List Char) (r : RandParams) :
    (updateLetterPositions w r).length = w.length := by
  simp [updateLetterPositions]

theorem get_updateLetterPositions (w : List Char) (r : RandParams) (i : Nat)
    (h : i < w.length) (h' : i < (updateLetterPositions w r).length) :
    (updateLetterPositions w r).get ⟨i, h'⟩ =
      { text := w.get ⟨i, h⟩
        pos := ((r.xR * 6 - 3) - (w.length : ℚ) * (4/10 + 1/20) / 2 + (4/10) / 2
                  + (i : ℚ) * (4/10 + 1/20),
                r.yR * 4 - 2, 0)
        fontSize := (7/10) * (9/10 + r.fontR * (2/10)) } := by
  unfold updateLetterPositions
  rw [List.get_mapIdx _ _ _ h]

theorem length_freshLetters (w : List Char) (r : RandParams) (n : Nat) :
    (freshLetters w r n).length = w.length := by
  simp [freshLetters, length_updateLetterPositions]

theorem get_freshLetters (w : List Char) (r : RandParams) (n : Nat) (i : Nat)
    (h : i < w.length) (h' : i < (freshLetters w r n).length) :
    (freshLetters w r n).get ⟨i, h'⟩ =
      { id := n + i
        text := w.get ⟨i, h⟩
        pos := ((r.xR * 6 - 3) - (w.length : ℚ) * (4/10 + 1/20) / 2 + (4/10) / 2
                  + (i : ℚ) * (4/10 + 1/20),
                r.yR * 4 - 2, 0)
        isFadingOut := false
        fontSize := (7/10) * (9/10 + r.fontR * (2/10)) } := by
  have hu : i < (updateLetterPositions w r).length := by
    rw [length_updateLetterPositions]; exact h
  unfold freshLetters
  rw [List.get_mapIdx _ _ _ hu, get_updateLetterPositions w r i h hu]

theorem mem_freshLetters {l : Letter} {w : List Char} {r : RandParams} {n : Nat}
    (hl : l ∈ freshLetters w r n) :
    ∃ i, i < w.length ∧ l.id = n + i ∧ l.isFadingOut = false := by
  obtain ⟨⟨i, hi⟩, hget⟩ := List.mem_iff_get.mp hl
  have hw : i < w.length := by
    have := hi; rwa [length_freshLetters] at this
  refine ⟨i, hw, ?_, ?_⟩ <;> rw [← hget, get_freshLetters w r n i hw hi]

theorem map_id_freshLetters (w : List Char) (r : RandParams) (n : Nat) :
    (freshLetters w r n).map Letter.id = (List.range w.length).map (n + ·) := by
  apply List.ext_get
  · simp [length_freshLetters]
  · intro i h₁ h₂
    have hw : i < w.length := by
      have := h₁; rwa [List.length_map, length_freshLetters] at this
    have hf : i < (freshLetters w r n).length := by rwa [length_freshLetters]
    rw [List.get_map, get_freshLetters w r n i hw hf]
    simp [hw]

/-! ### The inductive invariant of reachable states -/

/-- The inductive invariant: the current word consists only of letter
and punctuation characters; displayed ids are below `nextId` and
pairwise distinct; every fading letter's id is below every non-fading
letter's id (so the non-fading letters are exactly the survivors of the
most recent commit). -/
structure Inv (s : AppState) : Prop where
  word_chars : ∀ c ∈ s.currentWord, isLetterKey c = true ∨ isPunctKey c = true
  ids_lt : ∀ l ∈ s.displayedLetters, l.id < s.nextId
  ids_nodup : (s.displayedLetters.map Letter.id).Nodup
  fade_lt : ∀ l₁ ∈ s.displayedLetters, ∀ l₂ ∈ s.displayedLetters,
    l₁.isFadingOut = true → l₂.isFadingOut = false → l₁.id < l₂.id

theorem inv_init : Inv init := by
  refine ⟨?_, ?_, ?_, ?_⟩ <;> simp [init]

theorem inv_commitDisplay {s : AppState} (hs : Inv s) (word : List Char)
    (r : RandParams) :
    let s' := commitDisplay word r s
    (∀ l ∈ s'.displayedLetters, l.id < s'.nextId) ∧
    (s'.displayedLetters.map Letter.id).Nodup ∧
    (∀ l₁ ∈ s'.displayedLetters, ∀ l₂ ∈ s'.displayedLetters,
      l₁.isFadingOut = true → l₂.isFadingOut = false → l₁.id < l₂.id) := by
  intro s'
  have hmem : ∀ l ∈ s'.displayedLetters,
      (∃ l₀ ∈ s.displayedLetters, l = markFading l₀) ∨ l ∈ freshLetters word r s.nextId := by
    intro l hl
    rcases List.mem_append.mp hl with h | h
    · obtain ⟨l₀, hl₀, rfl⟩ := List.mem_map.mp h
      exact Or.inl ⟨l₀, hl₀, rfl⟩
    · exact Or.inr h
  refine ⟨?_, ?_, ?_⟩
  · intro l hl
    rcases hmem l hl with ⟨l₀, hl₀, rfl⟩ | h
    · rw [markFading_id]
      calc l₀.id < s.nextId := hs.ids_lt l₀ hl₀
        _ ≤ s.nextId + word.length := Nat.le_add_right _ _
    · obtain ⟨i, hi, hid, -⟩ := mem_freshLetters h
      rw [hid]
      exact Nat.add_lt_add_left hi _
  · show ((s.displayedLetters.map markFading ++ freshLetters word r s.nextId).map
        Letter.id).Nodup
    rw [List.map_append, List.nodup_append]
    refine ⟨?_, ?_, ?_⟩
    · rw [List.map_map]
      have : Letter.id ∘ markFading = Letter.id := funext markFading_id
      rw [this]
      exact hs.ids_nodup
    · rw [map_id_freshLetters]
      exact (List.nodup_range _).map fun a b => by omega
    · intro a ha hb
      rw [List.map_map] at ha
      have heq : Letter.id ∘ markFading = Letter.id := funext markFading_id
      rw [heq] at ha
      obtain ⟨l₀, hl₀, hal⟩ := List.mem_map.mp ha
      rw [map_id_freshLetters] at hb
      obtain ⟨i, hi, hai⟩ := List.mem_map.mp hb
      have h₁ : l₀.id = a := hal
      have h₂ : s.nextId + i = a := hai
      have h₃ := hs.ids_lt l₀ hl₀
      omega
  · intro l₁ h₁ l₂ h₂ hf₁ hf₂
    rcases hmem l₂ h₂ with ⟨l₀, hl₀, rfl⟩ | h
    · rw [markFading_isFadingOut] at hf₂; exact absurd hf₂ (by simp)
    · obtain ⟨i, hi, hid₂, -⟩ := mem_freshLetters h
      rcases hmem l₁ h₁ with ⟨l₀, hl₀, rfl⟩ | h'
      · rw [markFading_id, hid₂]
        have := hs.ids_lt l₀ hl₀
        omega
      · obtain ⟨j, hj, hid₁, hfo⟩ := mem_freshLetters h'
        rw [hfo] at hf₁; exact absurd hf₁ (by simp)

theorem inv_startNewWordWith {s : AppState} (hs : Inv s) (w : List Char) :
    Inv (startNewWordWith w s) := by
  unfold startNewWordWith
  split
  · exact ⟨by intro c hc; simp at hc, hs.ids_lt, hs.ids_nodup, hs.fade_lt⟩
  · exact hs

theorem inv_spaceCommit {s : AppState} (hs : Inv s) (r : RandParams) :
    Inv (startNewWordWith s.currentWord (commitDisplay s.currentWord r s)) := by
  have h := inv_commitDisplay hs s.currentWord r
  exact inv_startNewWordWith (s := commitDisplay s.currentWord r s)
    ⟨hs.word_chars, h.1, h.2.1, h.2.2⟩ s.currentWord

theorem inv_punctCommit {s : AppState} (hs : Inv s) (c : Char) (r : RandParams)
    (hc : isPunctKey c = true) :
    Inv { commitDisplay (s.currentWord ++ [c]) r
            { s with currentWord := s.currentWord ++ [c] } with
          pendingCommits := s.pendingCommits ++ [s.currentWord] } := by
  have hw : ∀ d ∈ s.currentWord ++ [c], isLetterKey d = true ∨ isPunctKey d = true := by
    intro d hd
    rcases List.mem_append.mp hd with h | h
    · exact hs.word_chars d h
    · rw [List.mem_singleton.mp h]; exact Or.inr hc
  have h := inv_commitDisplay (s := { s with currentWord := s.currentWord ++ [c] })
      ⟨hw, hs.ids_lt, hs.ids_nodup, hs.fade_lt⟩ (s.currentWord ++ [c]) r
  exact ⟨hw, h.1, h.2.1, h.2.2⟩

theorem inv_step (e : Event) {s : AppState} (hs : Inv s) : Inv (step e s) := by
  cases e with
  | key k r =>
    cases k with
    | printable c =>
      show Inv (handleKeyDown (.printable c) r s)
      simp only [handleKeyDown]
      split
      · -- letter key: append a letter character
        rename_i hc
        refine ⟨?_, hs.ids_lt, hs.ids_nodup, hs.fade_lt⟩
        intro d hd
        rcases List.mem_append.mp hd with h | h
        · exact hs.word_chars d h
        · rw [List.mem_singleton.mp h]; exact Or.inl hc
      split
      · -- space key
        split
        · exact inv_spaceCommit hs r
        · exact hs
      split
      · -- punctuation key
        rename_i hc
        split
        · exact inv_punctCommit hs c r hc
        · exact hs
      · exact hs
    | backspace =>
      show Inv (handleKeyDown .backspace r s)
      simp only [handleKeyDown]
      split
      · refine ⟨?_, hs.ids_lt, hs.ids_nodup, hs.fade_lt⟩
        intro d hd
        exact hs.word_chars d ((List.dropLast_sublist s.currentWord).subset hd)
      · exact hs
    | enter =>
      show Inv (handleKeyDown .enter r s)
      simp only [handleKeyDown]
      split
      · exact inv_spaceCommit hs r
      · exact hs
    | otherNamed => exact hs
  | timeout =>
    show Inv (fireTimeout s)
    unfold fireTimeout
    split
    · exact hs
    · rename_i w rest _
      exact inv_startNewWordWith (s := { s with pendingCommits := rest })
        ⟨hs.word_chars, hs.ids_lt, hs.ids_nodup, hs.fade_lt⟩ w
  | fadeComplete id =>
    show Inv (handleFadeComplete id s)
    have hsub : ∀ l ∈ s.displayedLetters.filter fun l => l.id ≠ id,
        l ∈ s.displayedLetters := fun l hl => List.mem_of_mem_filter hl
    refine ⟨hs.word_chars, ?_, ?_, ?_⟩
    · exact fun l hl => hs.ids_lt l (hsub l hl)
    · exact hs.ids_nodup.sublist ((List.filter_sublist s.displayedLetters).map _)
    · exact fun l₁ h₁ l₂ h₂ => hs.fade_lt l₁ (hsub l₁ h₁) l₂ (hsub l₂ h₂)
  | download =>
    show Inv (handleDownload s).1
    unfold handleDownload
    split
    · exact hs
    · exact ⟨hs.word_chars, hs.ids_lt, hs.ids_nodup, hs.fade_lt⟩
  | copy ok =>
    show Inv (handleCopy ok s).1
    unfold handleCopy
    split
    · exact hs
    · split
      · exact ⟨hs.word_chars, hs.ids_lt, hs.ids_nodup, hs.fade_lt⟩
      · exact hs
  | clearAll =>
    show Inv (clearAllText s)
    refine ⟨?_, ?_, ?_, ?_⟩ <;> simp [clearAllText]
  | toggle => exact ⟨hs.word_chars, hs.ids_lt, hs.ids_nodup, hs.fade_lt⟩
  | slider q => exact ⟨hs.word_chars, hs.ids_lt, hs.ids_nodup, hs.fade_lt⟩

theorem reachable_inv {s : AppState} (h : Reachable s) : Inv s := by
  induction h with
  | init => exact inv_init
  | step e _ ih => exact inv_step e ih

theorem reachable_run {s : AppState} (h : Reachable s) :
    ∀ es : List Event, Reachable (run s es)
  | [] => h
  | e :: es => reachable_run (Reachable.step e h) es

/-! ### Helper lemmas for the claim theorems -/

theorem not_ws_of_word_char {c : Char}
    (h : isLetterKey c = true ∨ isPunctKey c = true) : isJsWhitespace c = false := by
  cases hws : isJsWhitespace c
  · rfl
  · exfalso
    unfold isJsWhitespace at hws
    simp only [Bool.or_eq_true, decide_eq_true_eq] at hws
    rcases hws with ((((((h1 | h1) | h1) | h1) | h1) | h1) | h1) <;> subst h1 <;>
      revert h <;> decide

theorem jsTrim_of_inv {s : AppState} (hs : Inv s) : jsTrim s.currentWord = s.currentWord :=
  jsTrim_eq_self fun c hc => not_ws_of_word_char (hs.word_chars c hc)

theorem punct_char_cases {c : Char} (h : isPunctKey c = true) :
    isLetterKey c = false ∧ c ≠ ' ' := by
  unfold isPunctKey at h
  simp only [Bool.or_eq_true, decide_eq_true_eq] at h
  rcases h with ((((h1 | h1) | h1) | h1) | h1) | h1 <;> subst h1 <;> exact ⟨rfl, by decide⟩

theorem handleKeyDown_space (r : RandParams) (s : AppState) :
    handleKeyDown (.printable ' ') r s =
      if jsTrim s.currentWord ≠ [] then
        startNewWordWith s.currentWord (commitDisplay s.currentWord r s)
      else s := by
  simp only [handleKeyDown]
  rw [if_neg (by decide)]
  simp

theorem handleKeyDown_spaceEnter {k : Key} (hk : k = .printable ' ' ∨ k = .enter)
    (r : RandParams) (s : AppState) :
    handleKeyDown k r s =
      if jsTrim s.currentWord ≠ [] then
        startNewWordWith s.currentWord (commitDisplay s.currentWord r s)
      else s := by
  rcases hk with rfl | rfl
  · exact handleKeyDown_space r s
  · rfl

theorem handleKeyDown_punct {c : Char} (hc : isPunctKey c = true)
    (r : RandParams) (s : AppState) :
    handleKeyDown (.printable c) r s =
      if s.currentWord ≠ [] then
        { commitDisplay (s.currentWord ++ [c]) r
            { s with currentWord := s.currentWord ++ [c] } with
          pendingCommits := s.pendingCommits ++ [s.currentWord] }
      else s := by
  obtain ⟨h1, h2⟩ := punct_char_cases hc
  simp only [handleKeyDown]
  rw [if_neg (by simp [h1]), if_neg (by simpa using h2), if_pos hc]

theorem startNewWordWith_displayedLetters (w : List Char) (s : AppState) :
    (startNewWordWith w s).displayedLetters = s.displayedLetters := by
  unfold startNewWordWith; split <;> rfl

theorem startNewWordWith_of_guard {w : List Char} (h : jsTrim w ≠ []) (s : AppState) :
    startNewWordWith w s =
      { s with textBuffer := s.textBuffer ++ [w], hasText := true, currentWord := [] } := by
  unfold startNewWordWith; rw [if_pos h]

/-- The spec's export format: the buffer's words concatenated in order
with a single space character between consecutive words. -/
def specExport (buffer : List (List Char)) : List Char :=
  (buffer.intersperse [' ']).flatten

theorem jsJoin_eq_specExport (sep : List Char) :
    ∀ l : List (List Char), jsJoin sep l = (l.intersperse sep).flatten
  | [] => rfl
  | [w] => by simp [jsJoin, List.intersperse_singleton]
  | w :: w' :: ws => by
    rw [show jsJoin sep (w :: w' :: ws) = w ++ sep ++ jsJoin sep (w' :: ws) from rfl,
      jsJoin_eq_specExport sep (w' :: ws), List.intersperse_cons_cons]
    simp [List.flatten, List.append_assoc]

/-! ### Concrete inputs used by the witnesses -/

/-- A fixed sample of the random parameters. -/
def r0 : RandParams := ⟨0, 0, 0⟩

/-- The events typing the word "hi". -/
def typeHi : List Event := [.key (.printable 'h') r0, .key (.printable 'i') r0]

/-- A state whose text buffer holds the words "hi" and "yo". -/
def bufState : AppState :=
  { init with textBuffer := [['h', 'i'], ['y', 'o']], hasText := true }

/-! ### The claims -/

/-- C1: in every reachable state whose current word is non-empty (it then has
non-whitespace content), pressing space or Enter appends exactly the current word
as one new entry at the end of the text buffer and resets the current word to the
empty string; with an empty current word, space/Enter change no state. -/
theorem claim_C1 (s : AppState) (hs : Reachable s) (k : Key)
    (hk : k = Key.printable ' ' ∨ k = Key.enter) (r : RandParams) :
    (s.currentWord ≠ [] →
      (handleKeyDown k r s).textBuffer = s.textBuffer ++ [s.currentWord] ∧
      (handleKeyDown k r s).currentWord = []) ∧
    (s.currentWord = [] → handleKeyDown k r s = s) := by
  rw [handleKeyDown_spaceEnter hk]
  constructor
  · intro hne
    have hg : jsTrim s.currentWord ≠ [] := by
      rw [jsTrim_of_inv (reachable_inv hs)]; exact hne
    rw [if_pos hg, startNewWordWith_of_guard hg]
    exact ⟨rfl, rfl⟩
  · intro h0
    rw [if_neg (by rw [h0]; simp [jsTrim])]

/-- Witness for C1: the reachable state obtained by typing "hi", then space. -/
theorem claim_C1_witness :
    (run init typeHi).currentWord ≠ [] ∧
    ((handleKeyDown (.printable ' ') r0 (run init typeHi)).textBuffer
        = (run init typeHi).textBuffer ++ [(run init typeHi).currentWord] ∧
     (handleKeyDown (.printable ' ') r0 (run init typeHi)).currentWord = []) :=
  ⟨by decide,
   (claim_C1 (run init typeHi) (reachable_run Reachable.init typeHi)
      (.printable ' ') (Or.inl rfl) r0).1 (by decide)⟩

/-- C4: in every reachable state all displayed letters have pairwise distinct ids,
and every operation preserves this. -/
theorem claim_C4 (s : AppState) (h : Reachable s) :
    (s.displayedLetters.map Letter.id).Nodup ∧
    ∀ e : Event, ((step e s).displayedLetters.map Letter.id).Nodup :=
  ⟨(reachable_inv h).ids_nodup, fun e => (inv_step e (reachable_inv h)).ids_nodup⟩

/-- Witness for C4: the state reached by typing "hi", space, "y", '!'. -/
theorem claim_C4_witness :
    ((run init (typeHi ++ [.key (.printable ' ') r0, .key (.printable 'y') r0,
        .key (.printable '!') r0])).displayedLetters.map Letter.id).Nodup :=
  (claim_C4 _ (reachable_run Reachable.init _)).1

theorem fadeTick_nonneg (fs o : ℚ) : 0 ≤ fadeTick fs o := by
  unfold fadeTick
  dsimp only
  split
  · exact le_refl 0
  · next h => linarith [not_le.mp h]

theorem opacity_zero_absorb {fs : ℚ} (hpos : 0 < fs) {n : Nat}
    (h : opacityAt fs n = 0) : opacityAt fs (n + 1) = 0 := by
  show fadeTick fs (opacityAt fs n) = 0
  rw [h]
  unfold fadeTick
  dsimp only
  rw [if_pos (by linarith)]

theorem opacity_zero_of_le {fs : ℚ} (hpos : 0 < fs) {m n : Nat} (hmn : m ≤ n)
    (h : opacityAt fs m = 0) : opacityAt fs n = 0 := by
  induction n with
  | zero => exact (Nat.le_zero.mp hmn) ▸ h
  | succ k ih =>
    rcases Nat.lt_or_ge m (k + 1) with hlt | hge
    · exact opacity_zero_absorb hpos (ih (Nat.lt_succ_iff.mp hlt))
    · exact (Nat.le_antisymm hmn hge) ▸ h

/-- C5: for every positive fade speed, the opacity starts at 1 and is never
negative: each tick either decreases it by `fadeSpeed` while it stays strictly
positive, or clamps it to exactly 0 as soon as the decrement would be zero or
negative; the clamping (fade-complete) transition happens at most once. -/
theorem claim_C5 (fadeSpeed : ℚ) (hpos : 0 < fadeSpeed) :
    opacityAt fadeSpeed 0 = 1 ∧
    (∀ n, 0 ≤ opacityAt fadeSpeed n) ∧
    (∀ n, (opacityAt fadeSpeed (n + 1) = opacityAt fadeSpeed n - fadeSpeed ∧
            0 < opacityAt fadeSpeed (n + 1)) ∨
          (opacityAt fadeSpeed n - fadeSpeed ≤ 0 ∧ opacityAt fadeSpeed (n + 1) = 0)) ∧
    (∀ m n, opacityAt fadeSpeed m ≠ 0 → opacityAt fadeSpeed (m + 1) = 0 →
      opacityAt fadeSpeed n ≠ 0 → opacityAt fadeSpeed (n + 1) = 0 → m = n) := by
  refine ⟨rfl, ?_, ?_, ?_⟩
  · intro n
    cases n with
    | zero => norm_num [opacityAt]
    | succ k => exact fadeTick_nonneg fadeSpeed (opacityAt fadeSpeed k)
  · intro n
    show (fadeTick fadeSpeed (opacityAt fadeSpeed n) = _ ∧
          0 < fadeTick fadeSpeed (opacityAt fadeSpeed n)) ∨
         (_ ∧ fadeTick fadeSpeed (opacityAt fadeSpeed n) = 0)
    unfold fadeTick
    dsimp only
    by_cases h : opacityAt fadeSpeed n - fadeSpeed ≤ 0
    · exact Or.inr ⟨h, if_pos h⟩
    · exact Or.inl ⟨if_neg h, by rw [if_neg h]; linarith [not_le.mp h]⟩
  · intro m n hm hm1 hn hn1
    by_contra hne
    rcases Nat.lt_or_ge m n with hlt | hge
    · exact hn (opacity_zero_of_le hpos hlt hm1)
    · have hlt' : n < m := Nat.lt_of_le_of_ne hge (fun h => hne h.symm)
      exact hm (opacity_zero_of_le hpos hlt' hn1)

/-- Witness for C5 at the concrete fade speed 0.05. -/
theorem claim_C5_witness :
    (0 : ℚ) < 1/20 ∧
    (opacityAt (1/20) 0 = 1 ∧
     (∀ n, 0 ≤ opacityAt (1/20) n) ∧
     (∀ n, (opacityAt (1/20) (n + 1) = opacityAt (1/20) n - 1/20 ∧
             0 < opacityAt (1/20) (n + 1)) ∨
           (opacityAt (1/20) n - 1/20 ≤ 0 ∧ opacityAt (1/20) (n + 1) = 0)) ∧
     (∀ m n, opacityAt (1/20) m ≠ 0 → opacityAt (1/20) (m + 1) = 0 →
       opacityAt (1/20) n ≠ 0 → opacityAt (1/20) (n + 1) = 0 → m = n)) :=
  ⟨by norm_num, claim_C5 (1/20) (by norm_num)⟩

/-- C6: with a non-empty text buffer, a rejected clipboard write logs a console
error and leaves the whole state unchanged; a successful write clears the text
buffer. -/
theorem claim_C6 (s : AppState) (h : s.textBuffer ≠ []) :
    handleCopy false s = (s, some (getTextContent s), true) ∧
    handleCopy true s =
      ({ s with textBuffer := [], hasText := false }, some (getTextContent s), false) := by
  constructor <;> simp [handleCopy, clearTextBuffer, h]

/-- Witness for C6 at a buffer holding "hi yo". -/
theorem claim_C6_witness :
    bufState.textBuffer ≠ [] ∧
    (handleCopy false bufState = (bufState, some (getTextContent bufState), true) ∧
     handleCopy true bufState =
       ({ bufState with textBuffer := [], hasText := false },
        some (getTextContent bufState), false)) :=
  ⟨by decide, claim_C6 bufState (by decide)⟩

/-- C7: download with an empty text buffer is a no-op: the state is returned
unchanged in every field and no file is produced. -/
theorem claim_C7 (s : AppState) (h : s.textBuffer = []) :
    handleDownload s = (s, none) := by
  unfold handleDownload
  rw [if_pos h]

/-- Witness for C7 at the initial state. -/
theorem claim_C7_witness : init.textBuffer = [] ∧ handleDownload init = (init, none) :=
  ⟨rfl, claim_C7 init rfl⟩

/-- C2: committing a word of length `n` via space/Enter appends exactly `n` new
letter records to the displayed-letters list, one per character in original
order, each with `isFadingOut = false`, consecutive ids `nextId .. nextId+n-1`,
and x-positions increasing by the constant step
`letterWidth + letterSpacing = 0.4 + 0.05 = 0.45` per index. -/
theorem claim_C2 (s : AppState) (r : RandParams) (k : Key)
    (hk : k = Key.printable ' ' ∨ k = Key.enter)
    (hg : jsTrim s.currentWord ≠ []) :
    ∃ news : List Letter,
      (handleKeyDown k r s).displayedLetters
          = s.displayedLetters.map markFading ++ news ∧
      news.length = s.currentWord.length ∧
      (∀ i (hi : i < s.currentWord.length) (hi' : i < news.length),
        (news.get ⟨i, hi'⟩).text = s.currentWord.get ⟨i, hi⟩ ∧
        (news.get ⟨i, hi'⟩).id = s.nextId + i ∧
        (news.get ⟨i, hi'⟩).isFadingOut = false) ∧
      (∀ i (hi1 : i + 1 < news.length) (hi0 : i < news.length),
        (news.get ⟨i + 1, hi1⟩).pos.1 = (news.get ⟨i, hi0⟩).pos.1 + (4/10 + 1/20)) := by
  refine ⟨freshLetters s.currentWord r s.nextId, ?_,
    length_freshLetters _ _ _, ?_, ?_⟩
  · rw [handleKeyDown_spaceEnter hk, if_pos hg, startNewWordWith_displayedLetters]
    rfl
  · intro i hi hi'
    rw [get_freshLetters s.currentWord r s.nextId i hi hi']
    exact ⟨rfl, rfl, rfl⟩
  · intro i hi1 hi0
    have h1 : i + 1 < s.currentWord.length := by rwa [length_freshLetters] at hi1
    have h0 : i < s.currentWord.length := by rwa [length_freshLetters] at hi0
    rw [get_freshLetters s.currentWord r s.nextId (i + 1) h1 hi1,
      get_freshLetters s.currentWord r s.nextId i h0 hi0]
    dsimp only
    push_cast
    ring

/-- Witness for C2: committing "hi" (n = 2) with space. -/
theorem claim_C2_witness :
    jsTrim (run init typeHi).currentWord ≠ [] ∧
    (∃ news : List Letter,
      (handleKeyDown (.printable ' ') r0 (run init typeHi)).displayedLetters
          = (run init typeHi).displayedLetters.map markFading ++ news ∧
      news.length = (run init typeHi).currentWord.length ∧
      (∀ i (hi : i < (run init typeHi).currentWord.length) (hi' : i < news.length),
        (news.get ⟨i, hi'⟩).text = (run init typeHi).currentWord.get ⟨i, hi⟩ ∧
        (news.get ⟨i, hi'⟩).id = (run init typeHi).nextId + i ∧
        (news.get ⟨i, hi'⟩).isFadingOut = false) ∧
      (∀ i (hi1 : i + 1 < news.length) (hi0 : i < news.length),
        (news.get ⟨i + 1, hi1⟩).pos.1 = (news.get ⟨i, hi0⟩).pos.1 + (4/10 + 1/20))) :=
  ⟨by decide, claim_C2 (run init typeHi) r0 (.printable ' ') (Or.inl rfl) (by decide)⟩

/-- C3, evaluated at the failing input: after typing "hi", pressing '.' appends
the punctuation to the current word and displays the punctuated word "hi.", but
when the scheduled timeout fires the text buffer receives "hi" WITHOUT the
punctuation mark (the `setTimeout` callback invokes the render's `startNewWord`
closure, which captured the pre-punctuation `currentWord`), while the claim —
and the code's own comments — say the buffer receives the completed word
including the punctuation, "hi.". The current word is reset as claimed. -/
theorem claim_C3_code_bug :
    ((run init [Event.key (.printable 'h') r0, Event.key (.printable 'i') r0,
        Event.key (.printable '.') r0]).currentWord = ['h', 'i', '.'] ∧
     (run init [Event.key (.printable 'h') r0, Event.key (.printable 'i') r0,
        Event.key (.printable '.') r0]).displayedLetters.map Letter.text
          = ['h', 'i', '.']) ∧
    (run init [Event.key (.printable 'h') r0, Event.key (.printable 'i') r0,
        Event.key (.printable '.') r0, Event.timeout]).textBuffer = [['h', 'i']] ∧
    (run init [Event.key (.printable 'h') r0, Event.key (.printable 'i') r0,
        Event.key (.printable '.') r0, Event.timeout]).currentWord = [] ∧
    (run init [Event.key (.printable 'h') r0, Event.key (.printable 'i') r0,
        Event.key (.printable '.') r0, Event.timeout]).textBuffer
          ≠ [['h', 'i', '.']] := by
  decide

/-- C8: the exported text content used by both download and clipboard copy is
exactly the buffer's words joined with a single space between consecutive words
(empty for an empty buffer), and a non-empty download clears the text buffer. -/
theorem claim_C8 (s : AppState) (ok : Bool) :
    getTextContent s = specExport s.textBuffer ∧
    (s.textBuffer = [] → getTextContent s = []) ∧
    (s.textBuffer ≠ [] →
      (handleDownload s).2 = some (getTextContent s) ∧
      (handleDownload s).1.textBuffer = [] ∧
      (handleCopy ok s).2.1 = some (getTextContent s)) := by
  refine ⟨jsJoin_eq_specExport [' '] s.textBuffer, ?_, ?_⟩
  · intro h
    unfold getTextContent
    rw [h]
    rfl
  · intro h
    unfold handleDownload handleCopy
    rw [if_neg h, if_neg h]
    refine ⟨rfl, rfl, ?_⟩
    cases ok <;> rfl

/-- Witness for C8 at a buffer holding "hi yo". -/
theorem claim_C8_witness :
    bufState.textBuffer ≠ [] ∧
    getTextContent bufState = specExport bufState.textBuffer ∧
    ((handleDownload bufState).2 = some (getTextContent bufState) ∧
     (handleDownload bufState).1.textBuffer = [] ∧
     (handleCopy true bufState).2.1 = some (getTextContent bufState)) :=
  ⟨by decide, (claim_C8 bufState true).1, (claim_C8 bufState true).2.2 (by decide)⟩

theorem commitDisplay_fades_old {s : AppState} {w : List Char} {r : RandParams} :
    ∀ l ∈ (commitDisplay w r s).displayedLetters,
      l.id < s.nextId → l.isFadingOut = true := by
  intro l hl hid
  simp only [commitDisplay] at hl
  rcases List.mem_append.mp hl with h | h
  · obtain ⟨l₀, hl₀, rfl⟩ := List.mem_map.mp h
    exact markFading_isFadingOut l₀
  · obtain ⟨i, hi, hidl, -⟩ := mem_freshLetters h
    omega

/-- C9: every word commit (space/Enter or punctuation) sets `isFadingOut = true`
on every previously displayed letter (those with ids below `nextId`) that was not
already fading, and in every reachable state every fading letter's id is below
every non-fading letter's id — so at most the letters of the most recently
committed word are not fading out. -/
theorem claim_C9 (s : AppState) (r : RandParams) :
    (jsTrim s.currentWord ≠ [] → ∀ k, (k = Key.printable ' ' ∨ k = Key.enter) →
      ∀ l ∈ (handleKeyDown k r s).displayedLetters,
        l.id < s.nextId → l.isFadingOut = true) ∧
    (∀ c, isPunctKey c = true → s.currentWord ≠ [] →
      ∀ l ∈ (handleKeyDown (.printable c) r s).displayedLetters,
        l.id < s.nextId → l.isFadingOut = true) ∧
    (Reachable s → ∀ l₁ ∈ s.displayedLetters, ∀ l₂ ∈ s.displayedLetters,
      l₁.isFadingOut = true → l₂.isFadingOut = false → l₁.id < l₂.id) := by
  refine ⟨?_, ?_, fun h => (reachable_inv h).fade_lt⟩
  · intro hg k hk l hl hid
    rw [handleKeyDown_spaceEnter hk, if_pos hg, startNewWordWith_displayedLetters] at hl
    exact commitDisplay_fades_old l hl hid
  · intro c hc hcw l hl hid
    rw [handleKeyDown_punct hc, if_pos hcw] at hl
    exact commitDisplay_fades_old l hl hid

/-- Witness for C9: committing "y" with Enter over the remains of "hi". -/
theorem claim_C9_witness :
    jsTrim (run init (typeHi ++ [.key (.printable ' ') r0,
        .key (.printable 'y') r0])).currentWord ≠ [] ∧
    (∀ l ∈ (handleKeyDown .enter r0 (run init (typeHi ++ [.key (.printable ' ') r0,
          .key (.printable 'y') r0]))).displayedLetters,
      l.id < (run init (typeHi ++ [.key (.printable ' ') r0,
          .key (.printable 'y') r0])).nextId → l.isFadingOut = true) :=
  ⟨by decide,
   (claim_C9 (run init (typeHi ++ [.key (.printable ' ') r0,
      .key (.printable 'y') r0])) r0).1 (by decide) .enter (Or.inr rfl)⟩

/-- C10: in every reachable state the current word contains no whitespace — every
character is a single letter or one of the punctuation marks — so the guard
"`currentWord.trim()` is non-empty" is equivalent to "`currentWord` is
non-empty". -/
theorem claim_C10 (s : AppState) (h : Reachable s) :
    (∀ c ∈ s.currentWord, isLetterKey c = true ∨ isPunctKey c = true) ∧
    (∀ c ∈ s.currentWord, isJsWhitespace c = false) ∧
    (jsTrim s.currentWord ≠ [] ↔ s.currentWord ≠ []) := by
  have hi := reachable_inv h
  refine ⟨hi.word_chars, fun c hc => not_ws_of_word_char (hi.word_chars c hc), ?_⟩
  rw [jsTrim_of_inv hi]

/-- Witness for C10 at the reachable state with current word "hi". -/
theorem claim_C10_witness :
    (∀ c ∈ (run init typeHi).currentWord,
      isLetterKey c = true ∨ isPunctKey c = true) ∧
    (∀ c ∈ (run init typeHi).currentWord, isJsWhitespace c = false) ∧
    (jsTrim (run init typeHi).currentWord ≠ [] ↔ (run init typeHi).currentWord ≠ []) :=
  claim_C10 (run init typeHi) (reachable_run Reachable.init typeHi)

end VoidWriter
